import Mathlib

/-!
rv8: immediate bit-range model and JIT oracle harness.

A shallow embedding of `src/riscv-types.h` (width-typed immediates, `sign_extend`,
the bit range `B<N,M>`, the segment `S<K,L,B...>` and the immediate argument
templates `simm_arg_t` / `uimm_arg_t`) and of the counting logic of
`rv_test_jit::run_test` in `src/app/test-jit.cc`.

Conventions: a `uint64_t` is a `Nat` below `2^64`, an `int64_t` is an `Int`;
unsigned arithmetic wraps modulo `2^64`, conversions between the two are the
two's-complement reinterpretation.
-/

namespace riscv

/-! ## 64-bit machine arithmetic -/

/-- Unsigned 64-bit addition `a + b`. -/
def add64 (a b : Nat) : Nat := (a + b) % 2 ^ 64

/-- Unsigned 64-bit subtraction `a - b` (wraps below zero). -/
def sub64 (a b : Nat) : Nat := (a % 2 ^ 64 + 2 ^ 64 - b % 2 ^ 64) % 2 ^ 64

/-- Unsigned 64-bit left shift `x << k`; bits moved past bit 63 are lost. -/
def shl64 (x k : Nat) : Nat := (x <<< k) % 2 ^ 64

/-- Unsigned 64-bit right shift `x >> k`. -/
def shr64 (x k : Nat) : Nat := x >>> k

/-- The conversion `int64_t(x)` of an unsigned 64-bit pattern. -/
def toS64 (x : Nat) : Int :=
  if x % 2 ^ 64 < 2 ^ 63 then ((x % 2 ^ 64 : Nat) : Int) else ((x % 2 ^ 64 : Nat) : Int) - 2 ^ 64

/-- The conversion `uint64_t(x)` of a signed value. -/
def toU64 (x : Int) : Nat := (x % 2 ^ 64).toNat

/-! ## Width-typed immediates (`offset_t`, `ptr_t`, `simm_t`, `uimm_t`) -/

namespace offset_t

/-- The enumerator `min = -(1LL<<(W-1))` of `offset_t<W>`. -/
def min (W : Nat) : Int := - toS64 (shl64 1 (sub64 W 1))

/-- The enumerator `max = (1LL<<(W-1))-1` of `offset_t<W>`. -/
def max (W : Nat) : Int := toS64 (shl64 1 (sub64 W 1)) - 1

/-- The method `offset_t<W>::valid()`: `imm <= max && imm >= min`. -/
def valid (W : Nat) (imm : Int) : Bool := decide (imm ≤ max W) && decide (imm ≥ min W)

end offset_t

namespace ptr_t

/-- The enumerator `max = (1ULL<< W)-1` of `ptr_t<W>`. -/
def max (W : Nat) : Nat := sub64 (shl64 1 W) 1

/-- The method `ptr_t<W>::valid()`: `imm <= max`. -/
def valid (W : Nat) (imm : Nat) : Bool := decide (imm ≤ max W)

end ptr_t

namespace simm_t

/-- The enumerator `min = -(1LL<<(W-1))` of `simm_t<W>`. -/
def min (W : Nat) : Int := - toS64 (shl64 1 (sub64 W 1))

/-- The enumerator `max = (1LL<<(W-1))-1` of `simm_t<W>`. -/
def max (W : Nat) : Int := toS64 (shl64 1 (sub64 W 1)) - 1

/-- The method `simm_t<W>::valid()`: `imm <= max && imm >= min`. -/
def valid (W : Nat) (imm : Int) : Bool := decide (imm ≤ max W) && decide (imm ≥ min W)

end simm_t

namespace uimm_t

/-- The enumerator `max = (1ULL<< W)-1` of `uimm_t<W>`. -/
def max (W : Nat) : Nat := sub64 (shl64 1 W) 1

/-- The method `uimm_t<W>::valid()`: `imm <= max`. -/
def valid (W : Nat) (imm : Nat) : Bool := decide (imm ≤ max W)

end uimm_t

/-! ## Width-typed immediate constructor wrappers -/

/-- The wrapper `simm<W>(const ux imm)`: `simm_t<W>(imm)`. The object is given by its field
`imm` of type `sx`, which the constructor `simm_t(sx imm) : imm(imm)` initialises with the
unsigned argument converted to `sx`. -/
def simm (_W : Nat) (imm : Nat) : Int := toS64 imm

/-- The wrapper `uimm<W>(const ux imm)`: `uimm_t<W>(imm)`. The object is given by its field
`imm` of type `ux`, which the constructor `uimm_t(ux imm) : imm(imm)` initialises with the
argument. -/
def uimm (_W : Nat) (imm : Nat) : Nat := imm

/-! ## Sign extension -/

/-- The template `sign_extend<int64_t,B>(x)`: `x` is assigned to the signed bit-field
`struct { T x:B; }` (the conversion keeps its low `B` bits) and the field is read back, its
top bit `B-1` being the sign. -/
def sign_extend (B : Nat) (x : Int) : Int :=
  if x % 2 ^ B < 2 ^ (B - 1) then x % 2 ^ B else x % 2 ^ B - 2 ^ B

/-! ## Bit range `B<N,M>` and segment `S<K,L,B...>` -/

/-- The bit range template `B<N,M>`: decoded MSB offset `n`, decoded LSB offset `m`. -/
structure B where
  n : Nat
  m : Nat
deriving DecidableEq, Repr

/-- The enumerator `w = N - M + 1` of `B<N,M>`. -/
def B.w (b : B) : Nat := add64 (sub64 b.n b.m) 1

/-- The mask `((1ULL << (H::n + 1)) - 1) ^ ((1ULL << H::m) - 1)` of decoded bits `n..m`. -/
def B.mask (b : B) : Nat := sub64 (shl64 1 (b.n + 1)) 1 ^^^ sub64 (shl64 1 b.m) 1

namespace S

/-- The enumerator `o`: `0` for `S<K,L>`, `I::o + H::w` for `S<K,L,H,T...>`. -/
def o : List B → Nat
  | [] => 0
  | h :: t => add64 (o t) h.w

/-- The enumerator `s = int64_t(o + L) - int64_t(H::w - H::m)` of `S<K,L,H,T...>`: both
operands are computed in `uint64_t` and converted, and the difference is taken in `int64_t`
(where an overflowing constant expression would not compile). -/
def s (L : Nat) (h : B) (t : List B) : Int :=
  toS64 (add64 (o (h :: t)) L) - toS64 (sub64 h.w h.m)

/-- The shifted word `s < 0 ? insn << -s : insn >> s` of `decode`. -/
def shift_in (sh : Int) (insn : Nat) : Nat :=
  if sh < 0 then shl64 insn (-sh).toNat else shr64 insn sh.toNat

/-- The shifted field `s < 0 ? (imm & m) >> -s : (imm & m) << s` of `encode`. -/
def shift_out (sh : Int) (field : Nat) : Nat :=
  if sh < 0 then shr64 field (-sh).toNat else shl64 field sh.toNat

/-- The function `S<K,L,...>::decode(insn)`, by recursion on the listed bit ranges. -/
def decode (L : Nat) : List B → Nat → Nat
  | [], _ => 0
  | h :: t, insn => (shift_in (s L h t) insn &&& h.mask) ||| decode L t insn

/-- The function `S<K,L,...>::encode(imm)`, by recursion on the listed bit ranges. -/
def encode (L : Nat) : List B → Nat → Nat
  | [], _ => 0
  | h :: t, imm => shift_out (s L h t) (imm &&& h.mask) ||| encode L t imm

end S

/-- The segment template `S<K,L,Args...>`: instruction MSB offset `K`, instruction LSB
offset `L`, and the listed decoded bit ranges. -/
structure Seg where
  K : Nat
  L : Nat
  args : List B
deriving DecidableEq, Repr

/-- The function `S<K,L,Args...>::decode` of a segment. -/
def Seg.decode (g : Seg) (insn : Nat) : Nat := S.decode g.L g.args insn

/-- The function `S<K,L,Args...>::encode` of a segment. -/
def Seg.encode (g : Seg) (imm : Nat) : Nat := S.encode g.L g.args imm

/-! ## Immediate argument templates -/

namespace imm_arg_impl_t

/-- The function `imm_arg_impl_t<R,W,Args...>::decode`: `I::decode(insn) | H::decode(insn)`,
as a 64-bit pattern (the conversion to `R` keeps the pattern). -/
def decode : List Seg → Nat → Nat
  | [], _ => 0
  | h :: t, insn => decode t insn ||| h.decode insn

/-- The function `imm_arg_impl_t<R,W,Args...>::encode`: `I::encode(imm) | H::encode(imm)`,
as a 64-bit pattern (the conversion to `R` keeps the pattern). -/
def encode : List Seg → Nat → Nat
  | [], _ => 0
  | h :: t, imm => encode t imm ||| h.encode imm

end imm_arg_impl_t

namespace simm_arg_t

/-- The function `simm_arg_t<W,Args...>::decode`: `sign_extend<int64_t,W>(I::decode(insn))`. -/
def decode (W : Nat) (segs : List Seg) (insn : Nat) : Int :=
  sign_extend W (toS64 (imm_arg_impl_t.decode segs insn))

/-- The function `simm_arg_t<W,Args...>::encode`: `I::encode(imm)`, the signed argument
converted to `uint64_t`. -/
def encode (_W : Nat) (segs : List Seg) (imm : Int) : Nat :=
  imm_arg_impl_t.encode segs (toU64 imm)

end simm_arg_t

namespace uimm_arg_t

/-- The function `uimm_arg_t<W,Args...>::decode`: `I::decode(insn)`. -/
def decode (_W : Nat) (segs : List Seg) (insn : Nat) : Nat :=
  imm_arg_impl_t.decode segs insn

/-- The function `uimm_arg_t<W,Args...>::encode`: `I::encode(imm)`. -/
def encode (_W : Nat) (segs : List Seg) (imm : Nat) : Nat :=
  imm_arg_impl_t.encode segs imm

end uimm_arg_t

/-! ## Shifts with their domain of definition

In C++ a shift of a 64-bit operand is defined only for amounts `0 .. 63`. The functions
below follow `decode` and `encode` again and return `none` as soon as one shift falls
outside that domain. -/

/-- The shift `x << k` of a 64-bit operand, defined for `k < 64` only. -/
def shl_chk (x k : Nat) : Option Nat := if k < 64 then some (shl64 x k) else none

/-- The shift `x >> k` of a 64-bit operand, defined for `k < 64` only. -/
def shr_chk (x k : Nat) : Option Nat := if k < 64 then some (shr64 x k) else none

/-- The mask of `B.mask`, with both of its shifts `1ULL << (H::n + 1)` and `1ULL << H::m`
checked. -/
def B.mask_chk (b : B) : Option Nat :=
  (shl_chk 1 (b.n + 1)).bind fun hi =>
  (shl_chk 1 b.m).bind fun lo =>
  some (sub64 hi 1 ^^^ sub64 lo 1)

namespace S

/-- The shifted word of `decode`, with its shift checked. -/
def shift_in_chk (sh : Int) (insn : Nat) : Option Nat :=
  if sh < 0 then shl_chk insn (-sh).toNat else shr_chk insn sh.toNat

/-- The shifted field of `encode`, with its shift checked. -/
def shift_out_chk (sh : Int) (field : Nat) : Option Nat :=
  if sh < 0 then shr_chk field (-sh).toNat else shl_chk field sh.toNat

/-- The function `S<K,L,...>::decode` with every shift checked. -/
def decode_chk (L : Nat) : List B → Nat → Option Nat
  | [], _ => some 0
  | h :: t, insn =>
    h.mask_chk.bind fun m =>
    (shift_in_chk (s L h t) insn).bind fun x =>
    (decode_chk L t insn).bind fun r =>
    some ((x &&& m) ||| r)

/-- The function `S<K,L,...>::encode` with every shift checked. -/
def encode_chk (L : Nat) : List B → Nat → Option Nat
  | [], _ => some 0
  | h :: t, imm =>
    h.mask_chk.bind fun m =>
    (shift_out_chk (s L h t) (imm &&& m)).bind fun x =>
    (encode_chk L t imm).bind fun r =>
    some (x ||| r)

/-- The shift amounts `s` of a segment, one for each listed bit range, in listed order. -/
def shifts (L : Nat) : List B → List Int
  | [] => []
  | h :: t => s L h t :: shifts L t

end S

namespace imm_arg_impl_t

/-- The function `imm_arg_impl_t<R,W,Args...>::decode` with every shift checked. -/
def decode_chk : List Seg → Nat → Option Nat
  | [], _ => some 0
  | h :: t, insn =>
    (decode_chk t insn).bind fun a =>
    (S.decode_chk h.L h.args insn).bind fun b =>
    some (a ||| b)

/-- The function `imm_arg_impl_t<R,W,Args...>::encode` with every shift checked. -/
def encode_chk : List Seg → Nat → Option Nat
  | [], _ => some 0
  | h :: t, imm =>
    (encode_chk t imm).bind fun a =>
    (S.encode_chk h.L h.args imm).bind fun b =>
    some (a ||| b)

end imm_arg_impl_t

/-- The function `simm_arg_t<W,Args...>::decode` with every shift checked. -/
def simm_arg_t.decode_chk (W : Nat) (segs : List Seg) (insn : Nat) : Option Int :=
  (imm_arg_impl_t.decode_chk segs insn).map fun raw => sign_extend W (toS64 raw)

/-- The function `simm_arg_t<W,Args...>::encode` with every shift checked. -/
def simm_arg_t.encode_chk (_W : Nat) (segs : List Seg) (imm : Int) : Option Nat :=
  imm_arg_impl_t.encode_chk segs (toU64 imm)

/-- The function `uimm_arg_t<W,Args...>::decode` with every shift checked. -/
def uimm_arg_t.decode_chk (_W : Nat) (segs : List Seg) (insn : Nat) : Option Nat :=
  imm_arg_impl_t.decode_chk segs insn

/-- The function `uimm_arg_t<W,Args...>::encode` with every shift checked. -/
def uimm_arg_t.encode_chk (_W : Nat) (segs : List Seg) (imm : Nat) : Option Nat :=
  imm_arg_impl_t.encode_chk segs imm

/-! ## Descriptor conditions

The compile-time conditions under which the statements below are made. -/

/-- The width `N - M + 1` of a bit range, as a natural number. -/
def B.width (b : B) : Nat := b.n - b.m + 1

/-- A segment `S<K,L,B<N1,M1>,...>` with `0 < L ≤ K ≤ 31`, every `Mi ≤ Ni`, and range
widths summing to `K - L + 1`. -/
def Seg.wf (g : Seg) : Prop :=
  0 < g.L ∧ g.L ≤ g.K ∧ g.K ≤ 31 ∧ (∀ b ∈ g.args, b.m ≤ b.n) ∧
  (g.args.map B.width).sum = g.K - g.L + 1

instance (g : Seg) : Decidable g.wf := by
  unfold Seg.wf
  infer_instance

/-- A well-formed segment all of whose destination ranges end at or below bit 31. -/
def Seg.wf31 (g : Seg) : Prop := g.wf ∧ ∀ b ∈ g.args, b.n ≤ 31

instance (g : Seg) : Decidable g.wf31 := by
  unfold Seg.wf31
  infer_instance

/-- The destination ranges of a descriptor, in listed order. -/
def dest_ranges (segs : List Seg) : List B := (segs.map Seg.args).flatten

/-- Every destination range of the descriptor lies within bits `W-1 .. 0`. -/
def dest_within (W : Nat) (segs : List Seg) : Prop :=
  ∀ g ∈ segs, ∀ b ∈ g.args, b.m ≤ b.n ∧ b.n < W

instance (W : Nat) (segs : List Seg) : Decidable (dest_within W segs) := by
  unfold dest_within
  infer_instance

/-- A descriptor whose segments are well formed, whose source ranges `K..L` are disjoint
between different segments, and whose destination ranges are pairwise disjoint and lie
within bits `W-1 .. 0`. -/
def descriptor_ok (W : Nat) (segs : List Seg) : Prop :=
  (∀ g ∈ segs, g.wf) ∧
  segs.Pairwise (fun g h => g.K < h.L ∨ h.K < g.L) ∧
  dest_within W segs ∧
  (dest_ranges segs).Pairwise (fun a b => a.n < b.m ∨ b.n < a.m)

instance (W : Nat) (segs : List Seg) : Decidable (descriptor_ok W segs) := by
  unfold descriptor_ok
  infer_instance

/-- A well-formed immediate descriptor of width `W`: as `descriptor_ok`, and the destination
ranges together cover bits `W-1 .. 0`. -/
def descriptor_wf (W : Nat) (segs : List Seg) : Prop :=
  descriptor_ok W segs ∧ ∀ i, i < W → ∃ b ∈ dest_ranges segs, b.m ≤ i ∧ i ≤ b.n

instance (W : Nat) (segs : List Seg) : Decidable (descriptor_wf W segs) := by
  unfold descriptor_wf
  infer_instance

end riscv

/-! ## The oracle harness `rv_test_jit` (`src/app/test-jit.cc`) -/

/-- The part of an emulator object that `run_test` reads and writes: the integer register
file (`ireg[i].r.xu.val`), the log mask, the program counter, and the rest of its state. -/
structure Emulator (ρ : Type) where
  ireg : Nat → Nat
  log : Nat
  pc : Nat
  rest : ρ

/-- The emulator type `P` of `rv_test_jit<P>`, as far as `run_test` uses it. Its
operations are defined outside these sources and are taken as parameters: the register
count `P::ireg_count`, the two log masks, `step`, `start_trace`, and the call
`trace_cache[pc](&emulator)` of the compiled trace. -/
structure EmulatorOps (ρ : Type) where
  ireg_count : Nat
  proc_log_inst : Nat
  proc_log_jit_trace : Nat
  step : Emulator ρ → Nat → Emulator ρ
  start_trace : Emulator ρ → Emulator ρ
  trace_fn : Nat → Emulator ρ → Emulator ρ

/-- The largest value of the C++ type `int` of the two counters. -/
def INT_MAX : Int := 2 ^ 31 - 1

/-- The increment `x++` of an `int`: defined below `INT_MAX` only. -/
def int_incr (x : Int) : Option Int := if x < INT_MAX then some (x + 1) else none

/-- The fields of `rv_test_jit`. -/
structure rv_test_jit where
  total_tests : Int
  tests_passed : Int
deriving DecidableEq, Repr

namespace rv_test_jit

/-- The constructor `rv_test_jit() : total_tests(0), tests_passed(0)`. -/
def init : rv_test_jit := ⟨0, 0⟩

/-- The call `memset(&emulator.ireg[0], 0, regfile_size)`. -/
def clear_regs {ρ : Type} (P : EmulatorOps ρ) (e : Emulator ρ) : Emulator ρ :=
  { e with ireg := fun i => if i < P.ireg_count then 0 else e.ireg i }

/-- One reported line `ERROR interp-<reg>=... jit-<reg>=...`. -/
structure Mismatch where
  reg : Nat
  interp : Nat
  jit : Nat
deriving DecidableEq, Repr

/-- The result loop `for (i = 0; i < P::ireg_count; i++)` of `run_test`, over the indices
still to visit: a differing register clears `pass` and prints one line. -/
def result_loop (save_regs ireg : Nat → Nat) :
    List Nat → Bool × List Mismatch → Bool × List Mismatch
  | [], acc => acc
  | i :: rest, (pass, out) =>
    if save_regs i ≠ ireg i then
      result_loop save_regs ireg rest (false, out ++ [⟨i, save_regs i, ireg i⟩])
    else
      result_loop save_regs ireg rest (pass, out)

/-- What one call of `run_test` leaves behind: the harness, the emulator, the saved
interpreter registers, the reported mismatches and the printed verdict. -/
structure Outcome (ρ : Type) where
  harness : rv_test_jit
  emulator : Emulator ρ
  save_regs : Nat → Nat
  errors : List Mismatch
  pass : Bool

/-- The method `run_test(test_name, emulator, pc, step)`. -/
def run_test {ρ : Type} (P : EmulatorOps ρ) (t : rv_test_jit) (emulator : Emulator ρ)
    (pc step : Nat) : Option (Outcome ρ) :=
  -- clear registers
  let e := clear_regs P emulator
  -- step the interpreter
  let e := { e with log := P.proc_log_inst }
  let e := { e with pc := pc }
  let e := P.step e step
  -- save and reset registers
  let save_regs : Nat → Nat := fun i => if i < P.ireg_count then e.ireg i else 0
  let e := clear_regs P e
  -- compile the program buffer trace
  let e := { e with log := P.proc_log_jit_trace }
  let e := { e with pc := pc }
  let e := P.start_trace e
  -- reset registers
  let e := clear_regs P e
  -- run compiled trace
  let e := P.trace_fn pc e
  -- print result
  let r := result_loop save_regs e.ireg (List.range P.ireg_count) (true, [])
  (if r.1 then int_incr t.tests_passed else some t.tests_passed).bind fun passed =>
  (int_incr t.total_tests).bind fun total =>
  some ⟨⟨total, passed⟩, e, save_regs, r.2, r.1⟩

/-- One call of `run_test` as made by a `test_*` method: its own emulator object, the
entry pc and the step count. -/
structure Call (ρ : Type) where
  emulator : Emulator ρ
  pc : Nat
  step : Nat

/-- A sequence of `run_test` calls on one harness object. -/
def run_tests {ρ : Type} (P : EmulatorOps ρ) : rv_test_jit → List (Call ρ) → Option rv_test_jit
  | t, [] => some t
  | t, c :: rest =>
    (run_test P t c.emulator c.pc c.step).bind fun r => run_tests P r.harness rest

/-- A small emulator for trying the harness: 32 registers, whose interpreter and compiled
trace both write `0xde` to `a0` (register 10). -/
def demo_ops : EmulatorOps Unit where
  ireg_count := 32
  proc_log_inst := 1
  proc_log_jit_trace := 2
  step := fun e _ => { e with ireg := fun i => if i = 10 then 0xde else e.ireg i }
  start_trace := fun e => e
  trace_fn := fun _ e => { e with ireg := fun i => if i = 10 then 0xde else e.ireg i }

/-- A fresh emulator object for `demo_ops`. -/
def demo_emulator : Emulator Unit := ⟨fun _ => 0, 0, 0, ()⟩

end rv_test_jit

namespace riscv

/-! ## Machine-arithmetic lemmas -/

theorem toS64_of_lt {x : Nat} (h : x < 2 ^ 63) : toS64 x = (x : Int) := by
  unfold toS64
  have h1 : x % 2 ^ 64 = x := Nat.mod_eq_of_lt (by omega)
  rw [h1, if_pos h]

theorem add64_of_lt {a b : Nat} (h : a + b < 2 ^ 64) : add64 a b = a + b := by
  unfold add64
  exact Nat.mod_eq_of_lt h

theorem sub64_of_le {a b : Nat} (ha : a < 2 ^ 64) (h : b ≤ a) : sub64 a b = a - b := by
  unfold sub64
  omega

theorem toS64_sub64 {a b : Nat} (ha : a < 2 ^ 63) (hb : b < 2 ^ 63) :
    toS64 (sub64 a b) = (a : Int) - (b : Int) := by
  unfold toS64 sub64
  split <;> omega

theorem shl64_one {k : Nat} (h : k < 64) : shl64 1 k = 2 ^ k := by
  unfold shl64
  rw [Nat.one_shiftLeft]
  exact Nat.mod_eq_of_lt (Nat.pow_lt_pow_right (by norm_num) h)

theorem two_pow_le_of_le {a b : Nat} (h : a ≤ b) : 2 ^ a ≤ 2 ^ b :=
  Nat.pow_le_pow_right (by norm_num) h

theorem two_pow_lt_of_lt {a b : Nat} (h : a < b) : 2 ^ a < 2 ^ b :=
  Nat.pow_lt_pow_right (by norm_num) h

theorem simm_t_max_eq {W : Nat} (h1 : 1 ≤ W) (h2 : W ≤ 63) :
    simm_t.max W = 2 ^ (W - 1) - 1 := by
  unfold simm_t.max
  have hW : W < 2 ^ 64 := by omega
  rw [sub64_of_le hW h1, shl64_one (by omega)]
  have hlt : 2 ^ (W - 1) < 2 ^ 63 := two_pow_lt_of_lt (by omega)
  rw [toS64_of_lt hlt]
  push_cast
  rfl

theorem simm_t_min_eq {W : Nat} (h1 : 1 ≤ W) (h2 : W ≤ 63) :
    simm_t.min W = - 2 ^ (W - 1) := by
  unfold simm_t.min
  have hW : W < 2 ^ 64 := by omega
  rw [sub64_of_le hW h1, shl64_one (by omega)]
  have hlt : 2 ^ (W - 1) < 2 ^ 63 := two_pow_lt_of_lt (by omega)
  rw [toS64_of_lt hlt]
  push_cast
  rfl

theorem uimm_t_max_eq {W : Nat} (h2 : W ≤ 63) : uimm_t.max W = 2 ^ W - 1 := by
  unfold uimm_t.max
  rw [shl64_one (by omega)]
  have hlt : 2 ^ W < 2 ^ 64 := two_pow_lt_of_lt (by omega)
  have hpos : 1 ≤ 2 ^ W := Nat.one_le_two_pow
  exact sub64_of_le hlt hpos

theorem offset_t_valid_eq (W : Nat) (v : Int) : offset_t.valid W v = simm_t.valid W v := rfl

theorem ptr_t_valid_eq (W : Nat) (v : Nat) : ptr_t.valid W v = uimm_t.valid W v := rfl

/-! ## C5: the validity predicate is the range check -/

theorem simm_t_valid_iff {W : Nat} (h1 : 1 ≤ W) (h2 : W ≤ 63) (v : Int) :
    simm_t.valid W v = true ↔ (-2 ^ (W - 1) ≤ v ∧ v ≤ 2 ^ (W - 1) - 1) := by
  unfold simm_t.valid
  rw [simm_t_max_eq h1 h2, simm_t_min_eq h1 h2]
  simp only [Bool.and_eq_true, decide_eq_true_eq, ge_iff_le]
  exact And.comm

theorem offset_t_valid_iff {W : Nat} (h1 : 1 ≤ W) (h2 : W ≤ 63) (v : Int) :
    offset_t.valid W v = true ↔ (-2 ^ (W - 1) ≤ v ∧ v ≤ 2 ^ (W - 1) - 1) := by
  rw [offset_t_valid_eq]
  exact simm_t_valid_iff h1 h2 v

theorem uimm_t_valid_iff {W : Nat} (h2 : W ≤ 63) (v : Nat) :
    uimm_t.valid W v = true ↔ v ≤ 2 ^ W - 1 := by
  unfold uimm_t.valid
  rw [uimm_t_max_eq h2]
  simp only [decide_eq_true_eq]

theorem ptr_t_valid_iff {W : Nat} (h2 : W ≤ 63) (v : Nat) :
    ptr_t.valid W v = true ↔ v ≤ 2 ^ W - 1 := by
  rw [ptr_t_valid_eq]
  exact uimm_t_valid_iff h2 v

/-- C5: for `1 ≤ W ≤ 63`, `simm_t<W>(v).valid()` and `offset_t<W>(v).valid()` hold exactly
when `-2^(W-1) ≤ v ≤ 2^(W-1)-1`, and `uimm_t<W>(v).valid()` and `ptr_t<W>(v).valid()` hold
exactly when `v ≤ 2^W-1`; so an out-of-range value is reported as not valid. For simm12 the
values `0x7ff` and `-0x800` are valid, `0x800` and `-0x801` are not; for shamt5, `31` is valid
and `32` is not. -/
theorem valid_iff_in_range (W : Nat) (h1 : 1 ≤ W) (h2 : W ≤ 63) :
    (∀ v : Int, (simm_t.valid W v = true ↔ (-2 ^ (W - 1) ≤ v ∧ v ≤ 2 ^ (W - 1) - 1)) ∧
      (offset_t.valid W v = true ↔ (-2 ^ (W - 1) ≤ v ∧ v ≤ 2 ^ (W - 1) - 1))) ∧
    (∀ v : Nat, (uimm_t.valid W v = true ↔ v ≤ 2 ^ W - 1) ∧
      (ptr_t.valid W v = true ↔ v ≤ 2 ^ W - 1)) ∧
    (∀ v : Int, ¬ (-2 ^ (W - 1) ≤ v ∧ v ≤ 2 ^ (W - 1) - 1) →
      simm_t.valid W v = false ∧ offset_t.valid W v = false) ∧
    (∀ v : Nat, ¬ v ≤ 2 ^ W - 1 → uimm_t.valid W v = false ∧ ptr_t.valid W v = false) ∧
    simm_t.valid 12 0x7ff = true ∧ simm_t.valid 12 (-0x800) = true ∧
    simm_t.valid 12 0x800 = false ∧ simm_t.valid 12 (-0x801) = false ∧
    uimm_t.valid 5 31 = true ∧ uimm_t.valid 5 32 = false := by
  refine ⟨fun v => ⟨simm_t_valid_iff h1 h2 v, offset_t_valid_iff h1 h2 v⟩,
    fun v => ⟨uimm_t_valid_iff h2 v, ptr_t_valid_iff h2 v⟩, ?_, ?_,
    by decide, by decide, by decide, by decide, by decide, by decide⟩
  · intro v hv
    constructor
    · rw [← Bool.not_eq_true]
      exact fun h => hv ((simm_t_valid_iff h1 h2 v).1 h)
    · rw [← Bool.not_eq_true]
      exact fun h => hv ((offset_t_valid_iff h1 h2 v).1 h)
  · intro v hv
    constructor
    · rw [← Bool.not_eq_true]
      exact fun h => hv ((uimm_t_valid_iff h2 v).1 h)
    · rw [← Bool.not_eq_true]
      exact fun h => hv ((ptr_t_valid_iff h2 v).1 h)

/-- Witness for C5 at `W = 12` (simm12 / uimm12). -/
theorem valid_iff_in_range_witness :
    (1 ≤ 12 ∧ 12 ≤ 63) ∧
    (simm_t.valid 12 0x7ff = true ↔ ((-2 ^ (12 - 1) : Int) ≤ 0x7ff ∧ (0x7ff : Int) ≤ 2 ^ (12 - 1) - 1)) :=
  ⟨by decide, ((valid_iff_in_range 12 (by decide) (by decide)).1 0x7ff).1⟩

/-! ## C8: sign extension -/

theorem int_two_pow_split {B : Nat} (h1 : 1 ≤ B) : (2 : Int) ^ B = 2 * 2 ^ (B - 1) := by
  obtain ⟨k, rfl⟩ : ∃ k, B = k + 1 := ⟨B - 1, by omega⟩
  simp [pow_succ, mul_comm]

theorem sign_extend_range {B : Nat} (h1 : 1 ≤ B) (x : Int) :
    -2 ^ (B - 1) ≤ sign_extend B x ∧ sign_extend B x ≤ 2 ^ (B - 1) - 1 := by
  have hs := int_two_pow_split h1
  have hM : (0 : Int) < 2 ^ (B - 1) := by positivity
  have h0 : 0 ≤ x % 2 ^ B := Int.emod_nonneg _ (by positivity)
  have hlt : x % 2 ^ B < 2 ^ B := Int.emod_lt_of_pos _ (by positivity)
  unfold sign_extend
  split <;> constructor <;> omega

theorem sign_extend_emod {B : Nat} (x : Int) : sign_extend B x % 2 ^ B = x % 2 ^ B := by
  unfold sign_extend
  split
  · exact Int.emod_emod_of_dvd _ (dvd_refl _)
  · rw [Int.sub_emod, Int.emod_self, sub_zero, Int.emod_emod_of_dvd _ (dvd_refl _),
      Int.emod_emod_of_dvd _ (dvd_refl _)]

theorem sign_extend_congr {B : Nat} {x y : Int} (h : x % 2 ^ B = y % 2 ^ B) :
    sign_extend B x = sign_extend B y := by
  unfold sign_extend
  rw [h]

theorem sign_extend_of_in_range {B : Nat} (h1 : 1 ≤ B) {x : Int}
    (hlo : -2 ^ (B - 1) ≤ x) (hhi : x ≤ 2 ^ (B - 1) - 1) : sign_extend B x = x := by
  have hs := int_two_pow_split h1
  have hM : (0 : Int) < 2 ^ (B - 1) := by positivity
  unfold sign_extend
  by_cases hx : 0 ≤ x
  · have hm : x % 2 ^ B = x := Int.emod_eq_of_lt hx (by omega)
    rw [hm, if_pos (by omega)]
  · have hm : x % 2 ^ B = x + 2 ^ B := by
      have e : x % 2 ^ B = (x + 2 ^ B) % 2 ^ B := by simp
      rw [e]
      exact Int.emod_eq_of_lt (by omega) (by omega)
    rw [hm, if_neg (by omega)]
    omega
theorem toU64_cast (x : Int) : ((toU64 x : Nat) : Int) = x % 2 ^ 64 := by
  unfold toU64
  exact Int.toNat_of_nonneg (Int.emod_nonneg _ (by norm_num))

theorem toU64_lt (x : Int) : toU64 x < 2 ^ 64 := by
  have h := toU64_cast x
  have h2 : x % 2 ^ 64 < 2 ^ 64 := Int.emod_lt_of_pos _ (by norm_num)
  omega

theorem toU64_emod {B : Nat} (h2 : B ≤ 64) (x : Int) :
    ((toU64 x % 2 ^ B : Nat) : Int) = x % 2 ^ B := by
  push_cast
  rw [toU64_cast]
  exact Int.emod_emod_of_dvd _ (pow_dvd_pow 2 h2)

theorem testBit_top_of_lt {r k : Nat} (h : r < 2 ^ (k + 1)) :
    r.testBit k = decide (2 ^ k ≤ r) := by
  rw [Nat.testBit_to_div_mod]
  have hlt : r / 2 ^ k < 2 := by
    rw [Nat.div_lt_iff_lt_mul (by positivity)]
    rw [pow_succ] at h
    omega
  have hle : 2 ^ k ≤ r ↔ 1 ≤ r / 2 ^ k := by
    rw [Nat.le_div_iff_mul_le (by positivity)]
    simp
  by_cases hc : 2 ^ k ≤ r
  · have h1 := hle.1 hc
    have e : r / 2 ^ k = 1 := Nat.le_antisymm (Nat.lt_succ_iff.1 hlt) h1
    simp [hc, e]
  · have h1 : ¬ 1 ≤ r / 2 ^ k := fun h' => hc (hle.2 h')
    have e : r / 2 ^ k = 0 := Nat.eq_zero_of_not_pos h1
    simp [hc, e]

theorem toU64_sign_extend {B : Nat} (h1 : 1 ≤ B) (h2 : B ≤ 64) (x : Int) :
    toU64 (sign_extend B x) =
      if toU64 x % 2 ^ B < 2 ^ (B - 1) then toU64 x % 2 ^ B
      else 2 ^ B * (2 ^ (64 - B) - 1) + toU64 x % 2 ^ B := by
  have hr := toU64_emod h2 x
  have hrlt : toU64 x % 2 ^ B < 2 ^ B := Nat.mod_lt _ (by positivity)
  have hB : (2 : Nat) ^ B ≤ 2 ^ 64 := Nat.pow_le_pow_right (by norm_num) h2
  have hprod : (2 : Nat) ^ B * 2 ^ (64 - B) = 2 ^ 64 := by
    rw [← pow_add]
    congr 1
    omega
  have hone : 1 ≤ 2 ^ (64 - B) := Nat.one_le_two_pow
  have hmul : 2 ^ B * (2 ^ (64 - B) - 1) = 2 ^ 64 - 2 ^ B := by
    rw [Nat.mul_sub, hprod, mul_one]
  have hpc : ((2 ^ (B - 1) : Nat) : Int) = 2 ^ (B - 1) := by push_cast; rfl
  have hpB : ((2 ^ B : Nat) : Int) = 2 ^ B := by push_cast; rfl
  apply Int.ofNat_inj.1
  rw [toU64_cast]
  unfold sign_extend
  rw [← hr]
  by_cases hc : toU64 x % 2 ^ B < 2 ^ (B - 1)
  · have hc' : ((toU64 x % 2 ^ B : Nat) : Int) < 2 ^ (B - 1) := by
      rw [← hpc]; exact_mod_cast hc
    rw [if_pos hc', if_pos hc]
    exact Int.emod_eq_of_lt (by omega) (by omega)
  · have hc' : ¬ ((toU64 x % 2 ^ B : Nat) : Int) < 2 ^ (B - 1) := by
      rw [← hpc]; intro h; exact hc (by exact_mod_cast h)
    rw [if_neg hc', if_neg hc, hmul]
    have e : (((toU64 x % 2 ^ B : Nat) : Int) - 2 ^ B) % 2 ^ 64
        = (((toU64 x % 2 ^ B : Nat) : Int) - 2 ^ B + 2 ^ 64) % 2 ^ 64 := by simp
    rw [e]
    rw [Int.emod_eq_of_lt (by omega) (by omega)]
    omega

theorem sign_extend_bits {B : Nat} (h1 : 1 ≤ B) (h2 : B ≤ 64) (x : Int) :
    (∀ i, i < B → (toU64 (sign_extend B x)).testBit i = (toU64 x).testBit i) ∧
    (∀ i, B - 1 ≤ i → i < 64 →
      (toU64 (sign_extend B x)).testBit i = (toU64 x).testBit (B - 1)) := by
  have hrlt : toU64 x % 2 ^ B < 2 ^ B := Nat.mod_lt _ (by positivity)
  have htop : (toU64 x).testBit (B - 1) = decide (2 ^ (B - 1) ≤ toU64 x % 2 ^ B) := by
    have hlt' : toU64 x % 2 ^ B < 2 ^ (B - 1 + 1) := by
      rwa [Nat.sub_add_cancel h1]
    rw [← testBit_top_of_lt hlt', Nat.testBit_mod_two_pow]
    simp [show B - 1 < B by omega]
  have hlow : ∀ i, i < B → (toU64 (sign_extend B x)).testBit i = (toU64 x).testBit i := by
    intro i hi
    rw [toU64_sign_extend h1 h2]
    split
    · rw [Nat.testBit_mod_two_pow]; simp [hi]
    · rw [Nat.testBit_mul_pow_two_add _ hrlt, if_pos hi, Nat.testBit_mod_two_pow]; simp [hi]
  refine ⟨hlow, ?_⟩
  intro i hi h64
  by_cases hiB : i < B
  · have : i = B - 1 := by omega
    rw [hlow i hiB, this]
  · rw [htop, toU64_sign_extend h1 h2]
    by_cases hc : toU64 x % 2 ^ B < 2 ^ (B - 1)
    · rw [if_pos hc]
      have : ¬ 2 ^ (B - 1) ≤ toU64 x % 2 ^ B := by omega
      simp only [this, decide_False]
      apply Nat.testBit_lt_two_pow
      calc toU64 x % 2 ^ B < 2 ^ B := hrlt
        _ ≤ 2 ^ i := Nat.pow_le_pow_right (by norm_num) (by omega)
    · rw [if_neg hc, Nat.testBit_mul_pow_two_add _ hrlt, if_neg hiB,
        Nat.testBit_two_pow_sub_one]
      have : 2 ^ (B - 1) ≤ toU64 x % 2 ^ B := by omega
      simp only [this, decide_True, decide_eq_true_eq]
      omega
/-- C8: for `1 ≤ B ≤ 63` and every `x`, `sign_extend<int64_t,B>(x)` lies in
`-2^(B-1) .. 2^(B-1)-1`, is congruent to `x` modulo `2^B`, and is the only such value; its
64-bit pattern has the low `B` bits of `x` with bit `B-1` replicated upward; it is the
identity on values already in range, and it is idempotent. -/
theorem sign_extend_spec (B : Nat) (h1 : 1 ≤ B) (h2 : B ≤ 63) (x : Int) :
    (-2 ^ (B - 1) ≤ sign_extend B x ∧ sign_extend B x ≤ 2 ^ (B - 1) - 1) ∧
    sign_extend B x % 2 ^ B = x % 2 ^ B ∧
    (∀ y : Int, -2 ^ (B - 1) ≤ y → y ≤ 2 ^ (B - 1) - 1 → y % 2 ^ B = x % 2 ^ B →
      y = sign_extend B x) ∧
    (∀ i, i < B → (toU64 (sign_extend B x)).testBit i = (toU64 x).testBit i) ∧
    (∀ i, B - 1 ≤ i → i < 64 →
      (toU64 (sign_extend B x)).testBit i = (toU64 x).testBit (B - 1)) ∧
    (-2 ^ (B - 1) ≤ x → x ≤ 2 ^ (B - 1) - 1 → sign_extend B x = x) ∧
    sign_extend B (sign_extend B x) = sign_extend B x := by
  have hr := sign_extend_range h1 x
  have hb := sign_extend_bits h1 (by omega : B ≤ 64) x
  refine ⟨hr, sign_extend_emod x, ?_, hb.1, hb.2, fun hlo hhi => sign_extend_of_in_range h1 hlo hhi,
    sign_extend_of_in_range h1 hr.1 hr.2⟩
  intro y hlo hhi hy
  rw [← sign_extend_congr hy]
  exact (sign_extend_of_in_range h1 hlo hhi).symm

/-- Witness for C8 at `B = 12`, `x = 0xfff`: the result is `-1`. -/
theorem sign_extend_spec_witness :
    (1 ≤ 12 ∧ 12 ≤ 63) ∧ sign_extend 12 0xfff = -1 ∧
    sign_extend 12 (sign_extend 12 0xfff) = sign_extend 12 0xfff :=
  ⟨by decide, by decide, (sign_extend_spec 12 (by decide) (by decide) 0xfff).2.2.2.2.2.2⟩

/-! ## C4: decode extends to the declared width -/

theorem B.mask_eq {b : B} (hn : b.n < 63) (hm : b.m ≤ b.n) :
    b.mask = (2 ^ (b.n + 1) - 1) ^^^ (2 ^ b.m - 1) := by
  unfold B.mask
  rw [shl64_one (by omega), shl64_one (by omega)]
  have h1 : 2 ^ (b.n + 1) < 2 ^ 64 := two_pow_lt_of_lt (by omega)
  have h2 : 2 ^ b.m < 2 ^ 64 := two_pow_lt_of_lt (by omega)
  rw [sub64_of_le h1 Nat.one_le_two_pow, sub64_of_le h2 Nat.one_le_two_pow]

theorem B.mask_lt {b : B} {W : Nat} (hW : W ≤ 63) (hm : b.m ≤ b.n) (hn : b.n < W) :
    b.mask < 2 ^ W := by
  rw [B.mask_eq (by omega) hm]
  have h1 : 2 ^ (b.n + 1) ≤ 2 ^ W := two_pow_le_of_le (by omega)
  have h2 : 2 ^ b.m ≤ 2 ^ W := two_pow_le_of_le (by omega)
  have p1 : 1 ≤ 2 ^ (b.n + 1) := Nat.one_le_two_pow
  have p2 : 1 ≤ 2 ^ b.m := Nat.one_le_two_pow
  exact Nat.xor_lt_two_pow (by omega) (by omega)

theorem S.seg_decode_lt {W : Nat} (hW : W ≤ 63) (L : Nat) (args : List B)
    (h : ∀ b ∈ args, b.m ≤ b.n ∧ b.n < W) (x : Nat) : S.decode L args x < 2 ^ W := by
  induction args with
  | nil => exact Nat.pos_pow_of_pos _ (by norm_num)
  | cons b t ih =>
    have hb := h b (List.mem_cons_self _ _)
    have ht := ih (fun c hc => h c (List.mem_cons_of_mem _ hc))
    show (S.shift_in (S.s L b t) x &&& b.mask) ||| S.decode L t x < 2 ^ W
    exact Nat.or_lt_two_pow (Nat.and_lt_two_pow _ (B.mask_lt hW hb.1 hb.2)) ht

theorem imm_arg_impl_t.impl_decode_lt {W : Nat} (hW : W ≤ 63) (segs : List Seg)
    (h : dest_within W segs) (x : Nat) : imm_arg_impl_t.decode segs x < 2 ^ W := by
  induction segs with
  | nil => exact Nat.pos_pow_of_pos _ (by norm_num)
  | cons g t ih =>
    have hg := h g (List.mem_cons_self _ _)
    have ht := ih (fun c hc => h c (List.mem_cons_of_mem _ hc))
    show imm_arg_impl_t.decode t x ||| g.decode x < 2 ^ W
    exact Nat.or_lt_two_pow ht (S.seg_decode_lt hW g.L g.args hg x)

theorem toU64_natCast {r : Nat} (h : r < 2 ^ 64) : toU64 (r : Int) = r := by
  unfold toU64
  have e : ((r : Int)) % 2 ^ 64 = (r : Int) := Int.emod_eq_of_lt (by omega) (by omega)
  rw [e]
  exact Int.toNat_natCast r

theorem sign_extend_neg_iff {W : Nat} (h1 : 1 ≤ W) {r : Nat} (hr : r < 2 ^ W) :
    sign_extend W (r : Int) < 0 ↔ r.testBit (W - 1) = true := by
  have hr' : r < 2 ^ (W - 1 + 1) := by rwa [Nat.sub_add_cancel h1]
  rw [testBit_top_of_lt hr', decide_eq_true_eq]
  have hs := int_two_pow_split (B := W) h1
  have hpW : ((2 ^ W : Nat) : Int) = 2 ^ W := by push_cast; rfl
  have hpc : ((2 ^ (W - 1) : Nat) : Int) = 2 ^ (W - 1) := by push_cast; rfl
  have hm : (r : Int) % 2 ^ W = (r : Int) := Int.emod_eq_of_lt (by omega) (by omega)
  unfold sign_extend
  rw [hm]
  constructor
  · intro h
    by_contra hc
    have hc' : (r : Int) < 2 ^ (W - 1) := by rw [← hpc]; exact_mod_cast Nat.lt_of_not_le hc
    rw [if_pos hc'] at h
    omega
  · intro h
    have hc' : ¬ (r : Int) < 2 ^ (W - 1) := by
      rw [← hpc]; intro h'; have : r < 2 ^ (W - 1) := by exact_mod_cast h'
      omega
    rw [if_neg hc']
    omega

/-- C4: for `1 ≤ W ≤ 63`, a descriptor whose destination ranges lie within bits `W-1 .. 0`,
and every word `x`, with `raw` the OR of the segment decodes of `x`:
`simm_arg_t<W,...>::decode(x)` is the sign extension of `raw` from `W` bits (it lies in
`-2^(W-1) .. 2^(W-1)-1`, agrees with `raw` on bits `W-1 .. 0`, and is negative exactly when
bit `W-1` of `raw` is set), `uimm_arg_t<W,...>::decode(x)` is `raw` and is at most `2^W-1`,
and both decoded values pass `valid()` of the width-typed immediate of that width. -/
theorem decode_extends_to_width (W : Nat) (h1 : 1 ≤ W) (h2 : W ≤ 63) (segs : List Seg)
    (hd : dest_within W segs) (x : Nat) :
    simm_arg_t.decode W segs x = sign_extend W (imm_arg_impl_t.decode segs x : Int) ∧
    (-2 ^ (W - 1) ≤ simm_arg_t.decode W segs x ∧
      simm_arg_t.decode W segs x ≤ 2 ^ (W - 1) - 1) ∧
    simm_arg_t.decode W segs x % 2 ^ W = (imm_arg_impl_t.decode segs x : Int) ∧
    (∀ i, i < W → (toU64 (simm_arg_t.decode W segs x)).testBit i =
      (imm_arg_impl_t.decode segs x).testBit i) ∧
    (simm_arg_t.decode W segs x < 0 ↔
      (imm_arg_impl_t.decode segs x).testBit (W - 1) = true) ∧
    uimm_arg_t.decode W segs x = imm_arg_impl_t.decode segs x ∧
    uimm_arg_t.decode W segs x ≤ 2 ^ W - 1 ∧
    simm_t.valid W (simm_arg_t.decode W segs x) = true ∧
    uimm_t.valid W (uimm_arg_t.decode W segs x) = true := by
  have hraw := imm_arg_impl_t.impl_decode_lt h2 segs hd x
  have hW : 2 ^ W ≤ 2 ^ 63 := two_pow_le_of_le h2
  have h63 : imm_arg_impl_t.decode segs x < 2 ^ 63 := by omega
  have hdec : simm_arg_t.decode W segs x =
      sign_extend W (imm_arg_impl_t.decode segs x : Int) := by
    unfold simm_arg_t.decode
    rw [toS64_of_lt h63]
  have hrange := sign_extend_range h1 (imm_arg_impl_t.decode segs x : Int)
  have hpW : ((2 ^ W : Nat) : Int) = 2 ^ W := by push_cast; rfl
  have hle : uimm_arg_t.decode W segs x ≤ 2 ^ W - 1 := by
    unfold uimm_arg_t.decode
    omega
  refine ⟨hdec, ?_, ?_, ?_, ?_, rfl, hle, ?_, ?_⟩
  · rw [hdec]; exact hrange
  · rw [hdec, sign_extend_emod]
    exact Int.emod_eq_of_lt (by omega) (by omega)
  · intro i hi
    rw [hdec, (sign_extend_bits h1 (by omega : W ≤ 64) _).1 i hi, toU64_natCast (by omega)]
  · rw [hdec]
    exact sign_extend_neg_iff h1 hraw
  · rw [hdec]
    exact (simm_t_valid_iff h1 h2 _).2 hrange
  · exact (uimm_t_valid_iff h2 _).2 hle

/-- Witness for C4: the I-type descriptor `simm_arg_t<12, S<31,20,B<11,0>>>` at the word
`0xfff00513` (`addi a0, zero, -1`). -/
theorem decode_extends_to_width_witness :
    (1 ≤ 12 ∧ 12 ≤ 63 ∧ dest_within 12 [⟨31, 20, [⟨11, 0⟩]⟩]) ∧
    simm_arg_t.decode 12 [⟨31, 20, [⟨11, 0⟩]⟩] 0xfff00513 = -1 ∧
    simm_t.valid 12 (simm_arg_t.decode 12 [⟨31, 20, [⟨11, 0⟩]⟩] 0xfff00513) = true :=
  ⟨by decide, by decide,
    (decode_extends_to_width 12 (by decide) (by decide) [⟨31, 20, [⟨11, 0⟩]⟩] (by decide)
      0xfff00513).2.2.2.2.2.2.2.1⟩

/-! ## C6: no shift of decode or encode leaves its domain -/

theorem B.w_eq {b : B} (hm : b.m ≤ b.n) (hn : b.n < 2 ^ 63) : b.w = b.width := by
  unfold B.w B.width
  rw [sub64_of_le (by omega) hm, add64_of_lt (by omega)]

theorem S.o_eq (args : List B) (h : ∀ b ∈ args, b.m ≤ b.n ∧ b.n ≤ 31) {T : Nat}
    (hT : T < 2 ^ 63) (hsum : (args.map B.width).sum ≤ T) :
    S.o args = (args.map B.width).sum := by
  induction args with
  | nil => rfl
  | cons b t ih =>
    have hb := h b (List.mem_cons_self _ _)
    rw [List.map_cons, List.sum_cons] at hsum
    have ht := ih (fun c hc => h c (List.mem_cons_of_mem _ hc)) (by omega)
    show add64 (S.o t) b.w = _
    rw [ht, B.w_eq hb.1 (by omega), add64_of_lt (by omega), List.map_cons, List.sum_cons]
    omega

theorem S.s_eq (L : Nat) (b : B) (t : List B) (h : ∀ c ∈ b :: t, c.m ≤ c.n ∧ c.n ≤ 31)
    (hsum : ((b :: t).map B.width).sum + L ≤ 32) :
    S.s L b t = (((t.map B.width).sum + L + b.m : Nat) : Int) := by
  have hb := h b (List.mem_cons_self _ _)
  have ho := S.o_eq (b :: t) h (T := 32) (by norm_num) (by omega)
  rw [List.map_cons, List.sum_cons] at hsum ho
  have hw : b.width ≤ 32 := by unfold B.width; omega
  have hw' : b.width = b.n - b.m + 1 := rfl
  unfold S.s
  rw [ho, B.w_eq hb.1 (by omega), add64_of_lt (by omega), toS64_of_lt (by omega),
    toS64_sub64 (by omega) (by omega)]
  push_cast
  omega

theorem S.shifts_bound (K L : Nat) (hL : 0 < L) (hK : K ≤ 31) (args : List B)
    (h : ∀ b ∈ args, b.m ≤ b.n ∧ b.n ≤ 31) (hsum : (args.map B.width).sum + L ≤ K + 1) :
    ∀ sh ∈ S.shifts L args, 1 ≤ sh ∧ sh ≤ 62 := by
  induction args with
  | nil => intro sh hsh; simp [S.shifts] at hsh
  | cons b t ih =>
    have hb := h b (List.mem_cons_self _ _)
    have hse := S.s_eq L b t h (by omega)
    rw [List.map_cons, List.sum_cons] at hsum
    have hw : 1 ≤ b.width := by unfold B.width; omega
    intro sh hsh
    rw [S.shifts, List.mem_cons] at hsh
    rcases hsh with rfl | hsh
    · rw [hse]
      constructor <;> omega
    · exact ih (fun c hc => h c (List.mem_cons_of_mem _ hc)) (by omega) sh hsh

theorem B.mask_chk_eq {b : B} (hn : b.n + 1 < 64) (hm : b.m < 64) :
    b.mask_chk = some b.mask := by
  unfold B.mask_chk shl_chk
  rw [if_pos hn, if_pos hm]
  rfl

theorem S.shift_in_chk_eq {sh : Int} (h : -63 ≤ sh ∧ sh ≤ 63) (x : Nat) :
    S.shift_in_chk sh x = some (S.shift_in sh x) := by
  unfold S.shift_in_chk S.shift_in shl_chk shr_chk
  split
  · rw [if_pos (by omega)]
  · rw [if_pos (by omega)]

theorem S.shift_out_chk_eq {sh : Int} (h : -63 ≤ sh ∧ sh ≤ 63) (x : Nat) :
    S.shift_out_chk sh x = some (S.shift_out sh x) := by
  unfold S.shift_out_chk S.shift_out shl_chk shr_chk
  split
  · rw [if_pos (by omega)]
  · rw [if_pos (by omega)]

theorem S.seg_decode_chk_eq (L : Nat) (args : List B)
    (hs : ∀ sh ∈ S.shifts L args, -63 ≤ sh ∧ sh ≤ 63)
    (hm : ∀ b ∈ args, b.n + 1 < 64 ∧ b.m < 64) (x : Nat) :
    S.decode_chk L args x = some (S.decode L args x) := by
  induction args with
  | nil => rfl
  | cons b t ih =>
    have hb := hm b (List.mem_cons_self _ _)
    have hsb := hs (S.s L b t) (by simp [S.shifts])
    have ht := ih (fun sh hsh => hs sh (by simp [S.shifts, hsh]))
      (fun c hc => hm c (List.mem_cons_of_mem _ hc))
    simp only [S.decode_chk, S.decode, B.mask_chk_eq hb.1 hb.2, S.shift_in_chk_eq hsb, ht,
      Option.some_bind]

theorem S.seg_encode_chk_eq (L : Nat) (args : List B)
    (hs : ∀ sh ∈ S.shifts L args, -63 ≤ sh ∧ sh ≤ 63)
    (hm : ∀ b ∈ args, b.n + 1 < 64 ∧ b.m < 64) (x : Nat) :
    S.encode_chk L args x = some (S.encode L args x) := by
  induction args with
  | nil => rfl
  | cons b t ih =>
    have hb := hm b (List.mem_cons_self _ _)
    have hsb := hs (S.s L b t) (by simp [S.shifts])
    have ht := ih (fun sh hsh => hs sh (by simp [S.shifts, hsh]))
      (fun c hc => hm c (List.mem_cons_of_mem _ hc))
    simp only [S.encode_chk, S.encode, B.mask_chk_eq hb.1 hb.2, S.shift_out_chk_eq hsb, ht,
      Option.some_bind]

theorem Seg.wf31_shifts {g : Seg} (h : g.wf31) :
    ∀ sh ∈ S.shifts g.L g.args, -63 ≤ sh ∧ sh ≤ 63 := by
  obtain ⟨⟨hL, hLK, hK, hm, hsum⟩, hn⟩ := h
  intro sh hsh
  have := S.shifts_bound g.K g.L hL hK g.args (fun b hb => ⟨hm b hb, hn b hb⟩)
    (by omega) sh hsh
  constructor <;> omega

theorem Seg.wf31_masks {g : Seg} (h : g.wf31) :
    ∀ b ∈ g.args, b.n + 1 < 64 ∧ b.m < 64 := by
  obtain ⟨⟨_, _, _, hm, _⟩, hn⟩ := h
  intro b hbm
  have h1 := hm b hbm
  have h2 := hn b hbm
  constructor <;> omega

theorem imm_arg_impl_t.impl_decode_chk_eq (segs : List Seg) (h : ∀ g ∈ segs, g.wf31) (x : Nat) :
    imm_arg_impl_t.decode_chk segs x = some (imm_arg_impl_t.decode segs x) := by
  induction segs with
  | nil => rfl
  | cons g t ih =>
    have hg := h g (List.mem_cons_self _ _)
    have ht := ih (fun c hc => h c (List.mem_cons_of_mem _ hc))
    simp only [imm_arg_impl_t.decode_chk, imm_arg_impl_t.decode, Seg.decode, ht,
      S.seg_decode_chk_eq g.L g.args (Seg.wf31_shifts hg) (Seg.wf31_masks hg), Option.some_bind]

theorem imm_arg_impl_t.impl_encode_chk_eq (segs : List Seg) (h : ∀ g ∈ segs, g.wf31) (x : Nat) :
    imm_arg_impl_t.encode_chk segs x = some (imm_arg_impl_t.encode segs x) := by
  induction segs with
  | nil => rfl
  | cons g t ih =>
    have hg := h g (List.mem_cons_self _ _)
    have ht := ih (fun c hc => h c (List.mem_cons_of_mem _ hc))
    simp only [imm_arg_impl_t.encode_chk, imm_arg_impl_t.encode, Seg.encode, ht,
      S.seg_encode_chk_eq g.L g.args (Seg.wf31_shifts hg) (Seg.wf31_masks hg), Option.some_bind]

/-- C6: for every descriptor whose segments have `0 < L ≤ K ≤ 31`, `Mi ≤ Ni ≤ 31` and
widths summing to `K-L+1`, and every input word, `simm_arg_t::decode` and
`uimm_arg_t::decode` return a value with every shift inside its domain (and so do the two
`encode` functions on every immediate): each per-range shift amount `s` has
`-63 ≤ s ≤ 63`, and each mask shift `1 << (N+1)`, `1 << M` is by less than 64. -/
theorem decode_total (W : Nat) (segs : List Seg) (hwf : ∀ g ∈ segs, g.wf31) (x : Nat) :
    simm_arg_t.decode_chk W segs x = some (simm_arg_t.decode W segs x) ∧
    uimm_arg_t.decode_chk W segs x = some (uimm_arg_t.decode W segs x) ∧
    (∀ imm : Int, simm_arg_t.encode_chk W segs imm = some (simm_arg_t.encode W segs imm)) ∧
    (∀ imm : Nat, uimm_arg_t.encode_chk W segs imm = some (uimm_arg_t.encode W segs imm)) ∧
    (∀ g ∈ segs, ∀ sh ∈ S.shifts g.L g.args, -63 ≤ sh ∧ sh ≤ 63) ∧
    (∀ g ∈ segs, ∀ b ∈ g.args, b.n + 1 < 64 ∧ b.m < 64) := by
  refine ⟨?_, ?_, ?_, ?_, fun g hg => Seg.wf31_shifts (hwf g hg),
    fun g hg => Seg.wf31_masks (hwf g hg)⟩
  · unfold simm_arg_t.decode_chk simm_arg_t.decode
    rw [imm_arg_impl_t.impl_decode_chk_eq segs hwf x]
    rfl
  · exact imm_arg_impl_t.impl_decode_chk_eq segs hwf x
  · intro imm
    exact imm_arg_impl_t.impl_encode_chk_eq segs hwf (toU64 imm)
  · intro imm
    exact imm_arg_impl_t.impl_encode_chk_eq segs hwf imm

/-- Witness for C6: the S-type descriptor
`simm_arg_t<12, S<31,25,B<11,5>>, S<11,7,B<4,0>>>` at the word `0xfe112e23`. -/
theorem decode_total_witness :
    (∀ g ∈ [(⟨31, 25, [⟨11, 5⟩]⟩ : Seg), ⟨11, 7, [⟨4, 0⟩]⟩], g.wf31) ∧
    simm_arg_t.decode_chk 12 [⟨31, 25, [⟨11, 5⟩]⟩, ⟨11, 7, [⟨4, 0⟩]⟩] 0xfe112e23 =
      some (simm_arg_t.decode 12 [⟨31, 25, [⟨11, 5⟩]⟩, ⟨11, 7, [⟨4, 0⟩]⟩] 0xfe112e23) :=
  ⟨by decide, (decode_total 12 [⟨31, 25, [⟨11, 5⟩]⟩, ⟨11, 7, [⟨4, 0⟩]⟩] (by decide)
    0xfe112e23).1⟩

end riscv

/-! ## C9: the harness counts correctly -/

namespace rv_test_jit

theorem result_loop_eq (save_regs ireg : Nat → Nat) (l : List Nat) (pass : Bool)
    (out : List Mismatch) :
    result_loop save_regs ireg l (pass, out) =
      (pass && l.all (fun i => decide (save_regs i = ireg i)),
        out ++ (l.filter (fun i => decide (save_regs i ≠ ireg i))).map
          (fun i => ⟨i, save_regs i, ireg i⟩)) := by
  induction l generalizing pass out with
  | nil => simp [result_loop]
  | cons i rest ih =>
    by_cases h : save_regs i = ireg i
    · simp [result_loop, h, ih]
    · simp [result_loop, h, ih]

theorem result_loop_pass_iff (save_regs ireg : Nat → Nat) (n : Nat) :
    (result_loop save_regs ireg (List.range n) (true, [])).1 = true ↔
      ∀ i, i < n → save_regs i = ireg i := by
  rw [result_loop_eq]
  simp [List.all_eq_true]

theorem int_incr_of_lt {x : Int} (h : x < INT_MAX) : int_incr x = some (x + 1) := by
  unfold int_incr
  rw [if_pos h]

theorem run_test_some {ρ : Type} (P : EmulatorOps ρ) (t : rv_test_jit) (e : Emulator ρ)
    (pc step : Nat) (hp : t.tests_passed < INT_MAX) (ht : t.total_tests < INT_MAX) :
    ∃ r, run_test P t e pc step = some r ∧
      r.harness.total_tests = t.total_tests + 1 ∧
      r.harness.tests_passed = (if r.pass then t.tests_passed + 1 else t.tests_passed) ∧
      (r.pass = true ↔ ∀ i, i < P.ireg_count → r.save_regs i = r.emulator.ireg i) ∧
      r.errors = ((List.range P.ireg_count).filter
          (fun i => decide (r.save_regs i ≠ r.emulator.ireg i))).map
          (fun i => ⟨i, r.save_regs i, r.emulator.ireg i⟩) ∧
      r.save_regs = (fun i => if i < P.ireg_count then
          (P.step { clear_regs P e with log := P.proc_log_inst, pc := pc } step).ireg i
          else 0) ∧
      r.emulator = P.trace_fn pc (clear_regs P (P.start_trace
          { clear_regs P (P.step { clear_regs P e with log := P.proc_log_inst, pc := pc } step)
            with log := P.proc_log_jit_trace, pc := pc })) := by
  unfold run_test
  simp only [int_incr_of_lt ht, Option.some_bind]
  split
  · next hpass =>
    simp only [int_incr_of_lt hp, Option.some_bind]
    refine ⟨_, rfl, rfl, ?_, ?_, ?_, rfl, rfl⟩
    · simp only [hpass, if_true]
    · simp only [hpass, true_iff]
      exact (result_loop_pass_iff _ _ _).1 hpass
    · simp only [result_loop_eq, List.nil_append]
  · next hpass =>
    simp only [Option.some_bind]
    refine ⟨_, rfl, rfl, ?_, ?_, ?_, rfl, rfl⟩
    · simp only [hpass, if_false]
      simp
    · simp only [hpass]
      constructor
      · intro hf
        exact absurd hf (by decide)
      · intro hall
        exact absurd ((result_loop_pass_iff _ _ _).2 hall) hpass
    · simp only [result_loop_eq, List.nil_append]

theorem run_tests_inv {ρ : Type} (P : EmulatorOps ρ) (calls : List (Call ρ)) :
    ∀ t : rv_test_jit, 0 ≤ t.tests_passed → t.tests_passed ≤ t.total_tests →
      t.total_tests + calls.length ≤ INT_MAX →
      ∃ t', run_tests P t calls = some t' ∧ 0 ≤ t'.tests_passed ∧
        t'.tests_passed ≤ t'.total_tests ∧ t'.total_tests = t.total_tests + calls.length := by
  induction calls with
  | nil =>
    intro t h0 h1 _
    exact ⟨t, rfl, h0, h1, by simp⟩
  | cons c rest ih =>
    intro t h0 h1 hlen
    rw [List.length_cons] at hlen
    push_cast at hlen
    obtain ⟨r, hr, htot, hpas, _⟩ :=
      run_test_some P t c.emulator c.pc c.step (by omega) (by omega)
    have hpas' : r.harness.tests_passed = t.tests_passed ∨
        r.harness.tests_passed = t.tests_passed + 1 := by
      rw [hpas]
      split
      · exact Or.inr rfl
      · exact Or.inl rfl
    obtain ⟨t', ht', g0, g1, g2⟩ := ih r.harness (by omega) (by omega) (by omega)
    refine ⟨t', ?_, g0, g1, ?_⟩
    · show (run_test P t c.emulator c.pc c.step).bind _ = some t'
      rw [hr]
      exact ht'
    · rw [g2, htot, List.length_cons]
      push_cast
      omega

/-- C9: every call of `run_test` (with both `int` counters below `INT_MAX`) increases
`total_tests` by exactly 1, and increases `tests_passed` by exactly 1 if and only if for
every register index `i < ireg_count` the value saved after interpretation equals the value
in the register file after running the compiled trace; otherwise `tests_passed` is unchanged
and one mismatch is reported for each differing register, in index order. Hence after any
sequence of at most `INT_MAX` calls on a fresh `rv_test_jit`,
`0 ≤ tests_passed ≤ total_tests` and `total_tests` is the number of calls. -/
theorem run_test_counts {ρ : Type} (P : EmulatorOps ρ) :
    (∀ (t : rv_test_jit) (e : Emulator ρ) (pc step : Nat),
      t.tests_passed < INT_MAX → t.total_tests < INT_MAX →
      ∃ r, run_test P t e pc step = some r ∧
        r.harness.total_tests = t.total_tests + 1 ∧
        (r.harness.tests_passed = t.tests_passed + 1 ↔
          ∀ i, i < P.ireg_count → r.save_regs i = r.emulator.ireg i) ∧
        ((¬ ∀ i, i < P.ireg_count → r.save_regs i = r.emulator.ireg i) →
          r.harness.tests_passed = t.tests_passed) ∧
        r.errors = ((List.range P.ireg_count).filter
          (fun i => decide (r.save_regs i ≠ r.emulator.ireg i))).map
          (fun i => ⟨i, r.save_regs i, r.emulator.ireg i⟩) ∧
        r.save_regs = (fun i => if i < P.ireg_count then
          (P.step { clear_regs P e with log := P.proc_log_inst, pc := pc } step).ireg i
          else 0) ∧
        r.emulator = P.trace_fn pc (clear_regs P (P.start_trace
          { clear_regs P (P.step { clear_regs P e with log := P.proc_log_inst, pc := pc } step)
            with log := P.proc_log_jit_trace, pc := pc }))) ∧
    (∀ calls : List (Call ρ), (calls.length : Int) ≤ INT_MAX →
      ∃ t', run_tests P init calls = some t' ∧ 0 ≤ t'.tests_passed ∧
        t'.tests_passed ≤ t'.total_tests ∧ t'.total_tests = calls.length) := by
  constructor
  · intro t e pc step hp ht
    obtain ⟨r, hr, htot, hpas, hiff, herr, hsave, hemu⟩ := run_test_some P t e pc step hp ht
    refine ⟨r, hr, htot, ?_, ?_, herr, hsave, hemu⟩
    · rw [hpas, ← hiff]
      cases r.pass
      · simp
      · simp
    · intro hne
      rw [← hiff] at hne
      rw [hpas, if_neg hne]
  · intro calls hlen
    obtain ⟨t', ht', g0, g1, g2⟩ := run_tests_inv P calls init (le_refl _) (le_refl _)
      (by simpa [init] using hlen)
    exact ⟨t', ht', g0, g1, by simpa [init] using g2⟩

/-- Witness for C9: one call on a fresh harness with the demo emulator. -/
theorem run_test_counts_witness :
    (init.tests_passed < INT_MAX ∧ init.total_tests < INT_MAX ∧
      (([⟨demo_emulator, 0, 1⟩] : List (Call Unit)).length : Int) ≤ INT_MAX) ∧
    (∃ r, run_test demo_ops init demo_emulator 0 1 = some r ∧
      r.harness.total_tests = init.total_tests + 1) ∧
    (∃ t, run_tests demo_ops init [⟨demo_emulator, 0, 1⟩] = some t ∧
      t.total_tests = (([⟨demo_emulator, 0, 1⟩] : List (Call Unit)).length : Int)) :=
  ⟨by decide,
    ((run_test_counts demo_ops).1 init demo_emulator 0 1 (by decide) (by decide)).imp
      (fun _ h => ⟨h.1, h.2.1⟩),
    ((run_test_counts demo_ops).2 [⟨demo_emulator, 0, 1⟩] (by decide)).imp
      (fun _ h => ⟨h.1, h.2.2.2⟩)⟩

end rv_test_jit

/-! ## C1, C2, C3, C10: the shift amount of a range

For a well-formed segment the enumerator `s` of the range `B<N,M>` evaluates to `p + M`,
where `p = L +` the total width of the ranges listed after it is the lowest source bit of
the range (`S.s_eq`). Moving source bit `p + i` to destination bit `M + i` needs a right shift
by `p - M`; the two agree only for `M = 0`. The statements below evaluate `decode` and
`encode` at descriptors with `M ≠ 0`. -/

namespace riscv

/-- C1: the round trip at the well-formed descriptor `<3, S<3,1,B<0>,B<2>,B<1>>>` and the
in-range value `2`: `encode(2)` is `8` (bit 1 of the immediate is placed at bit 3 of the
word, where bit 0 of the immediate is placed too), and `decode(encode(2))` is `3`, not `2`,
for both `uimm_arg_t` and `simm_arg_t`. The I-type descriptor
`simm_arg_t<12, S<31,20,B<11,0>>>` of the tests does round-trip `0xde` and `0x7ff`. -/
theorem roundtrip_collision :
    descriptor_wf 3 [⟨3, 1, [⟨0, 0⟩, ⟨2, 2⟩, ⟨1, 1⟩]⟩] ∧
    uimm_t.valid 3 2 = true ∧ simm_t.valid 3 2 = true ∧
    S.shifts 1 [⟨0, 0⟩, ⟨2, 2⟩, ⟨1, 1⟩] = [3, 4, 2] ∧
    uimm_arg_t.encode 3 [⟨3, 1, [⟨0, 0⟩, ⟨2, 2⟩, ⟨1, 1⟩]⟩] 2 = 8 ∧
    uimm_arg_t.decode 3 [⟨3, 1, [⟨0, 0⟩, ⟨2, 2⟩, ⟨1, 1⟩]⟩]
      (uimm_arg_t.encode 3 [⟨3, 1, [⟨0, 0⟩, ⟨2, 2⟩, ⟨1, 1⟩]⟩] 2) = 3 ∧
    simm_arg_t.decode 3 [⟨3, 1, [⟨0, 0⟩, ⟨2, 2⟩, ⟨1, 1⟩]⟩]
      (simm_arg_t.encode 3 [⟨3, 1, [⟨0, 0⟩, ⟨2, 2⟩, ⟨1, 1⟩]⟩] 2) = 3 ∧
    descriptor_wf 12 [⟨31, 20, [⟨11, 0⟩]⟩] ∧
    simm_arg_t.decode 12 [⟨31, 20, [⟨11, 0⟩]⟩]
      (simm_arg_t.encode 12 [⟨31, 20, [⟨11, 0⟩]⟩] 0xde) = 0xde ∧
    simm_arg_t.decode 12 [⟨31, 20, [⟨11, 0⟩]⟩]
      (simm_arg_t.encode 12 [⟨31, 20, [⟨11, 0⟩]⟩] 0x7ff) = 0x7ff := by
  decide

/-- C2: `S<31,12,B<31,12>>::decode(0xdeadb000)` evaluates to `0`, not `0xdeadb000`: the
shift amount is `24`, not `0`, so word bit 12 (set) does not reach immediate bit 12. For
`S<11,7,B<4,1>,B<11>>` the shift of `B<11>` is `18` (a right shift), not a left shift by 4,
and word bit 7 does not become immediate bit 11. `S<31,20,B<11,0>>::decode(0x0de00513)`
is `0xde`. -/
theorem segment_decode_shift :
    Seg.wf ⟨31, 12, [⟨31, 12⟩]⟩ ∧
    S.shifts 12 [⟨31, 12⟩] = [24] ∧
    Seg.decode ⟨31, 12, [⟨31, 12⟩]⟩ 0xdeadb000 = 0 ∧
    Nat.testBit 0xdeadb000 12 = true ∧
    (Seg.decode ⟨31, 12, [⟨31, 12⟩]⟩ 0xdeadb000).testBit 12 = false ∧
    Seg.wf ⟨11, 7, [⟨4, 1⟩, ⟨11, 11⟩]⟩ ∧
    S.shifts 7 [⟨4, 1⟩, ⟨11, 11⟩] = [9, 18] ∧
    Seg.decode ⟨11, 7, [⟨4, 1⟩, ⟨11, 11⟩]⟩ 0x80 = 0 ∧
    Seg.decode ⟨31, 20, [⟨11, 0⟩]⟩ 0x0de00513 = 0xde := by
  decide

/-- C3: `S<31,12,B<31,12>>::encode(0xdeadb000)` evaluates to `0xdeadb000 << 24`, not
`0xdeadb000`: it is not below `2^32`, immediate bit 12 (set) lands on word bit 36 instead of
word bit 12, and word bits above `K = 31` are set. -/
theorem segment_encode_shift :
    Seg.wf ⟨31, 12, [⟨31, 12⟩]⟩ ∧
    Seg.encode ⟨31, 12, [⟨31, 12⟩]⟩ 0xdeadb000 = 0xdeadb000000000 ∧
    ¬ Seg.encode ⟨31, 12, [⟨31, 12⟩]⟩ 0xdeadb000 < 2 ^ 32 ∧
    Nat.testBit 0xdeadb000 12 = true ∧
    (Seg.encode ⟨31, 12, [⟨31, 12⟩]⟩ 0xdeadb000).testBit 12 = false ∧
    (Seg.encode ⟨31, 12, [⟨31, 12⟩]⟩ 0xdeadb000).testBit 36 = true := by
  decide

/-- C10: for `simm_arg_t<32, S<31,12,B<31,12>>>`, `decode(0xdeadb5b7)` is `0` and
`encode(decode(0xdeadb5b7))` is `0`, not `0xdeadb5b7 & 0xfffff000 = 0xdeadb000`; the same
holds for `uimm_arg_t`. -/
theorem encode_decode_utype :
    descriptor_ok 32 [⟨31, 12, [⟨31, 12⟩]⟩] ∧
    simm_arg_t.decode 32 [⟨31, 12, [⟨31, 12⟩]⟩] 0xdeadb5b7 = 0 ∧
    simm_arg_t.encode 32 [⟨31, 12, [⟨31, 12⟩]⟩]
      (simm_arg_t.decode 32 [⟨31, 12, [⟨31, 12⟩]⟩] 0xdeadb5b7) = 0 ∧
    uimm_arg_t.encode 32 [⟨31, 12, [⟨31, 12⟩]⟩]
      (uimm_arg_t.decode 32 [⟨31, 12, [⟨31, 12⟩]⟩] 0xdeadb5b7) = 0 ∧
    0xdeadb5b7 &&& 0xfffff000 = 0xdeadb000 := by
  decide

/-! ## C12: the constructor wrappers -/

theorem toS64_eq_ite {u : Nat} (hu : u < 2 ^ 64) :
    toS64 u = if u < 2 ^ 63 then (u : Int) else (u : Int) - 2 ^ 64 := by
  unfold toS64
  rw [Nat.mod_eq_of_lt hu]

theorem toS64_range (u : Nat) : -2 ^ 63 ≤ toS64 u ∧ toS64 u < 2 ^ 63 := by
  unfold toS64
  have h := Nat.mod_lt u (show 0 < 2 ^ 64 by norm_num)
  split <;> constructor <;> omega

theorem toU64_toS64 {u : Nat} (hu : u < 2 ^ 64) : toU64 (toS64 u) = u := by
  rw [toS64_eq_ite hu]
  unfold toU64
  split
  · have e : (u : Int) % 2 ^ 64 = (u : Int) := Int.emod_eq_of_lt (by omega) (by omega)
    rw [e]
    exact Int.toNat_natCast u
  · have e : ((u : Int) - 2 ^ 64) % 2 ^ 64 = (u : Int) := by
      have e1 : ((u : Int) - 2 ^ 64) % 2 ^ 64 = ((u : Int) - 2 ^ 64 + 2 ^ 64) % 2 ^ 64 := by
        simp
      rw [e1, sub_add_cancel]
      exact Int.emod_eq_of_lt (by omega) (by omega)
    rw [e]
    exact Int.toNat_natCast u

theorem simm_valid_iff {W : Nat} (h1 : 1 ≤ W) (h2 : W ≤ 63) {u : Nat} (hu : u < 2 ^ 64) :
    simm_t.valid W (simm W u) = true ↔ (u < 2 ^ (W - 1) ∨ 2 ^ 64 - 2 ^ (W - 1) ≤ u) := by
  rw [simm_t_valid_iff h1 h2]
  unfold simm
  rw [toS64_eq_ite hu]
  have hM : 2 ^ (W - 1) ≤ 2 ^ 62 := two_pow_le_of_le (by omega)
  have hpos : 1 ≤ 2 ^ (W - 1) := Nat.one_le_two_pow
  have hc : ((2 ^ (W - 1) : Nat) : Int) = 2 ^ (W - 1) := by push_cast; rfl
  rw [← hc]
  generalize 2 ^ (W - 1) = M at hM hpos
  split <;> constructor <;> intro h <;> omega

/-- C12: for every 64-bit unsigned `u` and `1 ≤ W ≤ 63`, `uimm<W>(u).imm` is `u`, and
`simm<W>(u).imm` is `u` read as a two's-complement signed 64-bit integer (`u` below `2^63`,
`u - 2^64` from there on; converting it back to unsigned gives `u`); so
`simm<W>(u).valid()` holds exactly when `u < 2^(W-1)` or `u ≥ 2^64 - 2^(W-1)`. In particular
`simm<12>(0x7ff)` is valid and `simm<12>(0xfff)` is not, although `0xfff` is below `2^12`. -/
theorem wrappers_keep_pattern (W : Nat) (h1 : 1 ≤ W) (h2 : W ≤ 63) (u : Nat)
    (hu : u < 2 ^ 64) :
    uimm W u = u ∧
    toU64 (simm W u) = u ∧
    (-2 ^ 63 ≤ simm W u ∧ simm W u < 2 ^ 63) ∧
    simm W u = (if u < 2 ^ 63 then (u : Int) else (u : Int) - 2 ^ 64) ∧
    (simm_t.valid W (simm W u) = true ↔ (u < 2 ^ (W - 1) ∨ 2 ^ 64 - 2 ^ (W - 1) ≤ u)) ∧
    simm_t.valid 12 (simm 12 0x7ff) = true ∧
    simm_t.valid 12 (simm 12 0xfff) = false ∧
    0xfff < 2 ^ 12 := by
  refine ⟨rfl, toU64_toS64 hu, toS64_range u, toS64_eq_ite hu, simm_valid_iff h1 h2 hu,
    by decide, by decide, by decide⟩

/-- Witness for C12 at `W = 12`, `u = 2^64 - 1`: `simm<12>(u).imm` is `-1`, which is valid. -/
theorem wrappers_keep_pattern_witness :
    (1 ≤ 12 ∧ 12 ≤ 63 ∧ 0xffffffffffffffff < 2 ^ 64) ∧
    simm 12 0xffffffffffffffff = -1 ∧
    (simm_t.valid 12 (simm 12 0xffffffffffffffff) = true ↔
      (0xffffffffffffffff < 2 ^ (12 - 1) ∨ 2 ^ 64 - 2 ^ (12 - 1) ≤ 0xffffffffffffffff)) :=
  ⟨by decide, by decide,
    (wrappers_keep_pattern 12 (by decide) (by decide) 0xffffffffffffffff
      (by decide)).2.2.2.2.1⟩

/-! ## C11: validity and the round trip

A value that survives `decode(encode(v))` is valid, because every decoded value is in range
(`simm_valid_of_roundtrip`, `uimm_valid_of_roundtrip`). The converse needs each range to be
put back where `decode` reads it from without meeting another range, which the shift amount
`p + M` does not give; the statement below evaluates both sides at such a descriptor. -/

theorem simm_valid_of_roundtrip {W : Nat} (h1 : 1 ≤ W) (h2 : W ≤ 63) (segs : List Seg)
    (hd : dest_within W segs) (v : Int)
    (h : simm_arg_t.decode W segs (simm_arg_t.encode W segs v) = v) :
    simm_t.valid W v = true := by
  rw [simm_t_valid_iff h1 h2, ← h]
  have hraw := imm_arg_impl_t.impl_decode_lt h2 segs hd (simm_arg_t.encode W segs v)
  have hW : 2 ^ W ≤ 2 ^ 63 := two_pow_le_of_le h2
  unfold simm_arg_t.decode
  rw [toS64_of_lt (by omega)]
  exact sign_extend_range h1 _

theorem uimm_valid_of_roundtrip {W : Nat} (h2 : W ≤ 63) (segs : List Seg)
    (hd : dest_within W segs) (v : Nat)
    (h : uimm_arg_t.decode W segs (uimm_arg_t.encode W segs v) = v) :
    uimm_t.valid W v = true := by
  rw [uimm_t_valid_iff h2, ← h]
  have hraw := imm_arg_impl_t.impl_decode_lt h2 segs hd (uimm_arg_t.encode W segs v)
  unfold uimm_arg_t.decode
  omega

/-- C11: at the well-formed descriptor `<3, S<3,1,B<0>,B<2>,B<1>>>`, whose destination
ranges cover exactly bits `2..0`, `valid()` and the round trip disagree:
`simm_t<3>(-2).valid()` holds while `simm_arg_t::decode(encode(-2))` is `-1`,
`uimm_t<3>(6).valid()` holds while `uimm_arg_t::decode(encode(6))` is `7`, and the value `2`
is valid for both and comes back as `3`. The out-of-range value `8` is not valid and comes
back as `0`. For the I-type descriptor `simm_arg_t<12, S<31,20,B<11,0>>>` the two sides agree
at `0x7ff` (valid, returned unchanged) and at `0x800` (not valid, returned as `-0x800`). -/
theorem valid_roundtrip_collision :
    descriptor_wf 3 [⟨3, 1, [⟨0, 0⟩, ⟨2, 2⟩, ⟨1, 1⟩]⟩] ∧
    simm_t.valid 3 (-2) = true ∧
    simm_arg_t.encode 3 [⟨3, 1, [⟨0, 0⟩, ⟨2, 2⟩, ⟨1, 1⟩]⟩] (-2) = 72 ∧
    simm_arg_t.decode 3 [⟨3, 1, [⟨0, 0⟩, ⟨2, 2⟩, ⟨1, 1⟩]⟩]
      (simm_arg_t.encode 3 [⟨3, 1, [⟨0, 0⟩, ⟨2, 2⟩, ⟨1, 1⟩]⟩] (-2)) = -1 ∧
    uimm_t.valid 3 6 = true ∧
    uimm_arg_t.decode 3 [⟨3, 1, [⟨0, 0⟩, ⟨2, 2⟩, ⟨1, 1⟩]⟩]
      (uimm_arg_t.encode 3 [⟨3, 1, [⟨0, 0⟩, ⟨2, 2⟩, ⟨1, 1⟩]⟩] 6) = 7 ∧
    simm_t.valid 3 2 = true ∧
    simm_arg_t.decode 3 [⟨3, 1, [⟨0, 0⟩, ⟨2, 2⟩, ⟨1, 1⟩]⟩]
      (simm_arg_t.encode 3 [⟨3, 1, [⟨0, 0⟩, ⟨2, 2⟩, ⟨1, 1⟩]⟩] 2) = 3 ∧
    uimm_t.valid 3 2 = true ∧
    uimm_arg_t.decode 3 [⟨3, 1, [⟨0, 0⟩, ⟨2, 2⟩, ⟨1, 1⟩]⟩]
      (uimm_arg_t.encode 3 [⟨3, 1, [⟨0, 0⟩, ⟨2, 2⟩, ⟨1, 1⟩]⟩] 2) = 3 ∧
    uimm_t.valid 3 8 = false ∧
    uimm_arg_t.decode 3 [⟨3, 1, [⟨0, 0⟩, ⟨2, 2⟩, ⟨1, 1⟩]⟩]
      (uimm_arg_t.encode 3 [⟨3, 1, [⟨0, 0⟩, ⟨2, 2⟩, ⟨1, 1⟩]⟩] 8) = 0 ∧
    descriptor_wf 12 [⟨31, 20, [⟨11, 0⟩]⟩] ∧
    simm_t.valid 12 0x7ff = true ∧
    simm_arg_t.decode 12 [⟨31, 20, [⟨11, 0⟩]⟩]
      (simm_arg_t.encode 12 [⟨31, 20, [⟨11, 0⟩]⟩] 0x7ff) = 0x7ff ∧
    simm_t.valid 12 0x800 = false ∧
    simm_arg_t.decode 12 [⟨31, 20, [⟨11, 0⟩]⟩]
      (simm_arg_t.encode 12 [⟨31, 20, [⟨11, 0⟩]⟩] 0x800) = -0x800 := by
  decide

end riscv
